import Mathlib

/-!
Verification development for the Hopper content script (message detection and
synchronization engine) and its platform adapters.

The JavaScript source is shallowly embedded:
JS strings are Lean Strings, and the JS string operations used by the code
(trim, toLowerCase, substring, startsWith, includes, split on whitespace) are
modelled over the underlying character list, matching the JS per-character
semantics; DOM nodes are identified by natural numbers, with the relevant
queries (parentElement, compareDocumentPosition, offsetTop, isConnected)
collected in an explicit environment; Date.now readings are Int fields fixed
at candidate creation; Array.prototype.sort with a comparator is modelled as
a stable sort (insertion sort) on the comparator, matching the ECMAScript
stability requirement; try/catch around the adapter call is modelled with
Except.
-/

/-! ## JS string primitives, modelled over the character list -/

/-- Whitespace test used by the JS trim and split operations. -/
def jsIsSpace (c : Char) : Bool :=
  c == ' ' || c == '\t' || c == '\n' || c == '\r'

/-- Model of String.prototype.trim. -/
def jsTrim (s : String) : String :=
  String.mk (((s.data.dropWhile jsIsSpace).reverse.dropWhile jsIsSpace).reverse)

/-- ASCII lower-casing of one character, as toLowerCase acts on the content here. -/
def jsLowerChar (c : Char) : Char :=
  if 'A' ≤ c && c ≤ 'Z' then Char.ofNat (c.toNat + 32) else c

/-- Model of String.prototype.toLowerCase. -/
def jsToLower (s : String) : String :=
  String.mk (s.data.map jsLowerChar)

/-- Model of the JS length property on strings. -/
def jsLength (s : String) : Nat :=
  s.data.length

/-- Model of s.substring(0, n). -/
def jsTake (s : String) (n : Nat) : String :=
  String.mk (s.data.take n)

/-- Model of s.startsWith(p). -/
def jsStartsWith (s p : String) : Bool :=
  p.data.isPrefixOf s.data

/-- Model of s.includes(sub). -/
def jsIncludes (s sub : String) : Bool :=
  (List.range (jsLength s + 1)).any (fun i => sub.data.isPrefixOf (s.data.drop i))

/-- Accumulator pass behind jsWords: splits a character list at whitespace runs. -/
def jsWordsAux : List Char → List Char → List (List Char)
  | [], acc => if acc.isEmpty then [] else [acc.reverse]
  | c :: cs, acc =>
    if jsIsSpace c then
      if acc.isEmpty then jsWordsAux cs [] else acc.reverse :: jsWordsAux cs []
    else jsWordsAux cs (c :: acc)

/-- Model of s.split on a whitespace run, as applied to already-trimmed text. -/
def jsWords (s : String) : List String :=
  (jsWordsAux s.data []).map String.mk

/-- Model of the JS expression a or-else b on strings, where only the empty
string is falsy. -/
def jsOr (a b : String) : String :=
  if a == "" then b else a

/-! ## Data model: DOM environment and messages -/

/-- The queries the engine makes against the host document, with DOM nodes
identified by natural numbers.  docPos is a document-order position used to
model compareDocumentPosition: node a precedes node b exactly when
docPos a < docPos b. -/
structure Dom where
  parent : Nat → Option Nat
  docPos : Nat → Int
  offsetTop : Nat → Int

/-- A message record as built by the platform adapters and stored by the
content script.  element is the elementRef (none models a missing element),
order is the detection order hint (none models undefined), originalId is the
extra DOM id stored by the Grok adapter (empty string models undefined). -/
structure Message where
  id : String
  role : String
  content : String
  fullContent : String
  element : Option Nat
  timestamp : Int
  order : Option Int
  originalId : String := ""
deriving DecidableEq

/-- Normalized content of a message:
(msg.fullContent or msg.content or empty).trim().toLowerCase(). -/
def Message.normContent (m : Message) : String :=
  jsToLower (jsTrim (jsOr (jsOr m.fullContent m.content) ""))

/-- JS test existing.element and new.element and existing.element === new.element:
both references present and identical. -/
def sameElement : Option Nat → Option Nat → Bool
  | some a, some b => a == b
  | _, _ => false

/-! ## Detection and dedup engine (detectMessages in the content script) -/

/-- The ancestor walk in the near-duplicate check:
while (current and current !== target and distance < 5) climb to the parent.
The fuel argument carries 5 - distance, so fuel 0 is the distance = 5 exit.
Returns the final current reference and distance. -/
def domWalk (parent : Nat → Option Nat) (tgt : Nat) :
    Nat → Option Nat → Nat → Option Nat × Nat
  | _, none, d => (none, d)
  | 0, some c, d => (some c, d)
  | fuel + 1, some c, d =>
    if c = tgt then (some c, d) else domWalk parent tgt fuel (parent c) (d + 1)

/-- Proximity heuristic: the walk from the new element reached the existing
element in fewer than 3 hops, so the candidate is treated as a re-render. -/
def proximityDrop (dom : Dom) (ne ee : Nat) : Bool :=
  let r := domWalk dom.parent ee 5 (some ne) 0
  decide (r.2 < 3) && r.1 == some ee

/-- Content similarity test of the near-duplicate check: equal normalized
content, or both longer than 10, length difference under 5 and equal 50
character prefixes. -/
def nearContent (ec nc : String) : Bool :=
  ec == nc ||
    (decide (jsLength ec > 10) && decide (jsLength nc > 10) &&
      decide ((Int.ofNat (jsLength ec) - Int.ofNat (jsLength nc)).natAbs < 5) &&
      jsTake ec (min 50 (jsLength ec)) == jsTake nc (min 50 (jsLength nc)))

/-- Check 1 of the near-duplicate filter: same defined order and either the
identical element or identical nonempty normalized content. -/
def check1 (e n : Message) : Bool :=
  match e.order, n.order with
  | some oe, some onew =>
    oe == onew &&
      (sameElement e.element n.element ||
        (!(e.normContent == "") && !(n.normContent == "") &&
          e.normContent == n.normContent))
  | _, _ => false

/-- Checks 2 and 3 of the near-duplicate filter: identical element, or nonempty
near-identical content with the elements within 3 ancestor hops. -/
def check23 (dom : Dom) (e n : Message) : Bool :=
  sameElement e.element n.element ||
    (!(e.normContent == "") && !(n.normContent == "") &&
      nearContent e.normContent n.normContent &&
      (match e.element, n.element with
       | some ee, some ne => proximityDrop dom ne ee
       | _, _ => false))

/-- One iteration of the near-duplicate loop: does the existing message e make
the engine drop candidate n. -/
def dropAgainst (dom : Dom) (e n : Message) : Bool :=
  (e.role == n.role) && (check1 e n || check23 dom e n)

/-- The near-duplicate filter predicate: candidate n survives against every
existing message. -/
def keepNew (dom : Dom) (msgs : List Message) (n : Message) : Bool :=
  msgs.all (fun e => !dropAgainst dom e n)

/-- messages.length > 0 ? Math.max over (m.order ?? -1) : -1. -/
def maxExistingOrder (msgs : List Message) : Int :=
  match msgs.map (fun m => m.order.getD (-1)) with
  | [] => -1
  | x :: xs => xs.foldl max x

/-- forEach((msg, i) => msg.order = base + i), written as a recursion carrying
the next order value. -/
def reassignFrom (base : Int) : List Message → List Message
  | [] => []
  | m :: rest => { m with order := some base } :: reassignFrom (base + 1) rest

/-- DeepSeek order reassignment: surviving candidates get orders starting at
maxExistingOrder + 1. -/
def reassignOrders (msgs l : List Message) : List Message :=
  reassignFrom (maxExistingOrder msgs + 1) l

/-- Stage 1 of the pass: drop candidates whose id is already present. -/
def idFiltered (msgs cands : List Message) : List Message :=
  cands.filter (fun m => !((msgs.map Message.id).contains m.id))

/-- The DeepSeek name, used by the engine to trigger order reassignment. -/
def deepSeekName : String := "DeepSeek"

/-- Stage 2 of the pass: on DeepSeek with surviving candidates, reassign orders. -/
def orderAdjusted (pname : String) (msgs u : List Message) : List Message :=
  if pname == deepSeekName && decide (0 < u.length) then reassignOrders msgs u else u

/-- The candidates a pass accepts: id-filtered, order-adjusted, then passed
through the near-duplicate filter against the existing sequence. -/
def acceptedNew (pname : String) (dom : Dom) (msgs cands : List Message) : List Message :=
  (orderAdjusted pname msgs (idFiltered msgs cands)).filter (keepNew dom msgs)

/-- The sort comparator of the engine: detection order first (a message with a
defined order precedes one without), then document position, then offsetTop,
then timestamp. -/
def msgCmp (dom : Dom) (a b : Message) : Int :=
  match a.order, b.order with
  | some oa, some ob => oa - ob
  | some _, none => -1
  | none, some _ => 1
  | none, none =>
    match a.element, b.element with
    | some ea, some eb =>
      if dom.docPos ea < dom.docPos eb then -1
      else if dom.docPos eb < dom.docPos ea then 1
      else
        if dom.offsetTop ea ≠ dom.offsetTop eb then dom.offsetTop ea - dom.offsetTop eb
        else a.timestamp - b.timestamp
    | _, _ => a.timestamp - b.timestamp

/-- The non-strict order induced by the comparator, as used by a stable sort. -/
def msgLE (dom : Dom) (a b : Message) : Prop :=
  msgCmp dom a b ≤ 0

instance (dom : Dom) : DecidableRel (msgLE dom) :=
  fun _ _ => inferInstanceAs (Decidable (_ ≤ _))

/-- One full detection pass of the engine over the authoritative sequence:
id dedup, DeepSeek order reassignment, near-duplicate filter, append and
stable sort.  Returns the new sequence and whether the UI was re-rendered. -/
def detectStep (pname : String) (dom : Dom) (msgs cands : List Message) :
    List Message × Bool :=
  if 0 < cands.length then
    if 0 < (acceptedNew pname dom msgs cands).length then
      (List.insertionSort (msgLE dom) (msgs ++ acceptedNew pname dom msgs cands), true)
    else (msgs, false)
  else (msgs, false)

/-- The try/catch around the adapter call in detectMessages: a throwing adapter
is caught at the call site, logged and treated as no new information. -/
def detectMessagesGuarded (pname : String) (dom : Dom) (msgs : List Message)
    (adapterResult : Except String (List Message)) : List Message × Bool :=
  match adapterResult with
  | .error _ => (msgs, false)
  | .ok cands => detectStep pname dom msgs cands

/-- Modelled from the spec: the section 3 ordering invariant stated in the spec
words (order ascending; DOM document position ascending when order ties or is
absent; timestamp ascending as a last resort), for comparison with msgCmp. -/
def specCmp (dom : Dom) (a b : Message) : Int :=
  let ordCmp : Int :=
    match a.order, b.order with
    | some oa, some ob => oa - ob
    | _, _ => 0
  if ordCmp ≠ 0 then ordCmp
  else
    match a.element, b.element with
    | some ea, some eb =>
      if dom.docPos ea < dom.docPos eb then -1
      else if dom.docPos eb < dom.docPos ea then 1
      else a.timestamp - b.timestamp
    | _, _ => a.timestamp - b.timestamp

/-- Modelled from the spec: the sequence is sorted under the spec comparator. -/
def specSorted (dom : Dom) : List Message → Bool
  | [] => true
  | [_] => true
  | a :: b :: rest => decide (specCmp dom a b ≤ 0) && specSorted dom (b :: rest)

/-! ## Change-notification scheduler (observeDOM debounce callback) -/

/-- The debounce-timeout callback of the DOM observer, for a single mutation
burst firing at time t0 in a context whose message sequence is empty, on a
platform that provides isStreaming and a streaming wait w (generic path,
without the DeepSeek and Qwen special cases).  streaming is the value
isStreaming() would return at a given time; foundNew is whether the immediate
scan found new messages.  Returns the times at which detectMessages runs:
if streaming at t0, re-check at t0 + w; if still streaming there, detect at
t0 + 2w without any further check; otherwise detect at t0 (plus one
confirmatory re-scan at t0 + w when new messages appeared). -/
def streamingSchedule (streaming : Nat → Bool) (foundNew : Bool) (t0 w : Nat) : List Nat :=
  if streaming t0 then
    if streaming (t0 + w) then [t0 + 2 * w] else [t0 + w]
  else
    if foundNew then [t0, t0 + w] else [t0]

/-! ## Conversation-context teardown (checkUrlChange) -/

/-- The scheduling state the content script keeps in module globals: the
authoritative sequence, the MutationObserver connection, the pending debounce
timer (observerTimeout), the pending streaming re-check timer
(streamingTimeout) and the two fixed-period fallback polls. -/
structure EngineState where
  messages : List Message
  observerConnected : Bool
  observerTimeout : Option Nat
  streamingTimeout : Option Nat
  deepSeekInterval : Bool
  qwenInterval : Bool
deriving DecidableEq

/-- The synchronous teardown branch of checkUrlChange on a normalized URL
change: clears the sequence, disconnects the observer and clears
observerTimeout.  It does not touch streamingTimeout nor the DeepSeek and
Qwen fallback intervals. -/
def teardownContext (s : EngineState) : EngineState :=
  { s with
    messages := []
    observerConnected := false
    observerTimeout := none }

/-- A pending streamingTimeout firing: its callback runs detectMessages against
whatever the current sequence is (the inner timeout of observeDOM runs it
unconditionally). -/
def fireStreamingTimeout (pname : String) (dom : Dom) (cands : List Message)
    (s : EngineState) : EngineState :=
  match s.streamingTimeout with
  | none => s
  | some _ =>
    { s with
      messages := (detectStep pname dom s.messages cands).1
      streamingTimeout := none }

/-- A tick of the DeepSeek fixed-period fallback poll: if active, it runs
detectMessages against the current sequence. -/
def fireDeepSeekInterval (dom : Dom) (cands : List Message) (s : EngineState) : EngineState :=
  if s.deepSeekInterval then
    { s with messages := (detectStep deepSeekName dom s.messages cands).1 }
  else s

/-! ## Scroll resolution (scrollToMessage and ensureMessageElement) -/

/-- The document queries made while re-locating a message element: liveness of
a node, getElementById, the data-id and id-substring selector queries, and the
Kimi text-search collections (chat-content-item nodes with their textContent,
and the role-specific content blocks with their textContent and their closest
chat-content-item wrapper). -/
structure KimiBlock where
  elem : Nat
  text : String
  wrapper : Option Nat
deriving DecidableEq

structure ScrollEnv where
  connected : Nat → Bool
  byId : String → Option Nat
  queryDataId : String → Option Nat
  queryIdContains : String → Option Nat
  kimiItems : List (Nat × String)
  kimiAssistantBlocks : List KimiBlock
  kimiUserBlocks : List KimiBlock

/-- The Kimi platform name. -/
def kimiName : String := "Kimi"

/-- The assistant role string. -/
def assistantRole : String := "assistant"

/-- First five whitespace-separated words of the search text, re-joined. -/
def kimiFirstWords (searchText : String) : String :=
  String.intercalate (String.mk [' ']) ((jsWords searchText).take 5)

/-- The match test on a chat-content-item: its lowered trimmed text starts with
the first words, or contains them after a space, or contains the first 50
characters of the search text. -/
def kimiItemMatch (rawText firstWords searchText : String) : Bool :=
  let text := jsToLower (jsTrim rawText)
  jsStartsWith text firstWords ||
    jsIncludes text (String.mk (' ' :: firstWords.data)) ||
    jsIncludes text (jsTake searchText 50)

/-- The match test on a content block in the second Kimi fallback. -/
def kimiBlockMatch (rawText firstWords : String) : Bool :=
  let text := jsToLower (jsTrim rawText)
  jsStartsWith text firstWords || jsIncludes text (String.mk (' ' :: firstWords.data))

/-- The fallback search of ensureMessageElement when the stored element is
gone: on Kimi with nonempty search text, scan the chat-content-item nodes,
then the role-specific content blocks keeping only matches that have a
chat-content-item wrapper; on other platforms, getElementById on the stored
originalId, then the data-id selector, then the id-substring selector. -/
def requeryElement (env : ScrollEnv) (pname : String) (msg : Message) (id : String) :
    Option Nat :=
  let searchText := jsToLower (jsTrim (jsOr (jsOr msg.fullContent msg.content) ""))
  if pname == kimiName && !(searchText == "") then
    let firstWords := kimiFirstWords searchText
    match env.kimiItems.find? (fun it => kimiItemMatch it.2 firstWords searchText) with
    | some it => some it.1
    | none =>
      let blocks :=
        if msg.role == assistantRole then env.kimiAssistantBlocks else env.kimiUserBlocks
      blocks.findSome? (fun b => if kimiBlockMatch b.text firstWords then b.wrapper else none)
  else
    let c0 := if msg.originalId == "" then none else env.byId msg.originalId
    match c0 with
    | some c => some c
    | none =>
      match env.queryDataId id with
      | some c => some c
      | none => env.queryIdContains id

/-- ensureMessageElement: reuse the stored element if still connected, else run
the fallback search and cache a found candidate back into the message. -/
def ensureMessageElement (env : ScrollEnv) (pname : String) (msg : Message) (id : String) :
    Option Nat × Message :=
  let alive :=
    match msg.element with
    | some el => env.connected el
    | none => false
  if alive then (msg.element, msg)
  else
    match requeryElement env pname msg id with
    | some c => (some c, { msg with element := some c })
    | none => (none, msg)

/-- In-place mutation of the first list entry satisfying p, as the JS object
update acts on the array. -/
def replaceFirst (p : Message → Bool) (x : Message) : List Message → List Message
  | [] => []
  | m :: rest => if p m then x :: rest else m :: replaceFirst p x rest

/-- Observable outcome of scrollToMessage on the host page: unknown id, no
live target (no scrolling, no highlight), or an eased scroll plus highlight
on a resolved element. -/
inductive ScrollOutcome where
  | missingMessage : ScrollOutcome
  | noTarget : ScrollOutcome
  | scrolled : Nat → ScrollOutcome
deriving DecidableEq

/-- scrollToMessage: look the id up in the sequence, resolve a live element via
ensureMessageElement, and either bail out as a no-op or scroll to and
highlight the resolved element.  Sidebar-only effects are not modelled. -/
def scrollToMessage (env : ScrollEnv) (pname : String) (msgs : List Message) (id : String) :
    ScrollOutcome × List Message :=
  match msgs.find? (fun m => m.id == id) with
  | none => (ScrollOutcome.missingMessage, msgs)
  | some msg =>
    let res := ensureMessageElement env pname msg id
    let msgs1 := replaceFirst (fun m => m.id == id) res.2 msgs
    match res.1 with
    | none => (ScrollOutcome.noTarget, msgs1)
    | some el =>
      if env.connected el then (ScrollOutcome.scrolled el, msgs1)
      else (ScrollOutcome.noTarget, msgs1)

/-! ## Scroll animation (smoothScrollToTarget and isTargetCentered) -/

/-- easeOutQuart, the easing curve of the scroll animation. -/
def easeOutQuart (t : ℚ) : ℚ := 1 - (1 - t) ^ 4

/-- Duration of one animation attempt: 320 plus 0.4 per distance unit capped at
580 on the first attempt, 300 on every retry. -/
def scrollDuration (absDelta : ℚ) (attempt : Nat) : ℚ :=
  if attempt == 0 then 320 + min (absDelta * (2 / 5)) 580 else 300

/-- The maxAttempts constant of smoothScrollToTarget. -/
def maxScrollAttempts : Nat := 2

/-- isTargetCentered: the element top plus half its height (clamped at 140) is
within 90 of the viewport vertical center. -/
def isTargetCentered (rectTop rectHeight viewportHeight : ℚ) : Bool :=
  decide (|rectTop + min rectHeight 140 / 2 - viewportHeight / 2| < 90)

/-- The retry recursion at the end of an animation attempt: retry while
attempt < maxAttempts and the target is not centered.  centered gives the
isTargetCentered reading after each attempt; retriesLeft carries
maxAttempts - attempt.  Returns the attempt numbers actually run. -/
def runAttempts (centered : Nat → Bool) : Nat → Nat → List Nat
  | attempt, 0 => [attempt]
  | attempt, r + 1 =>
    if centered attempt then [attempt]
    else attempt :: runAttempts centered (attempt + 1) r

/-- The attempts a full smoothScrollToTarget call performs, starting at 0. -/
def smoothScrollAttempts (centered : Nat → Bool) : List Nat :=
  runAttempts centered 0 maxScrollAttempts

/-! ## Favorites (toggleFavorite) -/

/-- toggleFavorite: remove every occurrence of the id when present, append it
when absent. -/
def toggleFavorite (favorites : List String) (id : String) : List String :=
  if favorites.contains id then favorites.filter (fun f => !(f == id))
  else favorites ++ [id]

/-! ## Helper lemmas -/

lemma replaceFirst_of_mem_find? (p : Message → Bool) (l : List Message) (x : Message)
    (h : l.find? p = some x) : replaceFirst p x l = l := by
  induction l with
  | nil => simp at h
  | cons m rest ih =>
    by_cases hm : p m
    · rw [List.find?_cons_of_pos _ hm] at h
      cases h
      simp [replaceFirst, hm]
    · rw [List.find?_cons_of_neg _ hm] at h
      simp [replaceFirst, hm, ih h]

lemma length_runAttempts (centered : Nat → Bool) :
    ∀ r a, (runAttempts centered a r).length ≤ r + 1 := by
  intro r
  induction r with
  | zero => intro a; simp [runAttempts]
  | succ r ih =>
    intro a
    by_cases h : centered a
    · simp [runAttempts, h]
    · simpa [runAttempts, h, Nat.succ_le_succ_iff] using ih (a + 1)

/-! ## Claim theorems -/

/-- Concrete fixtures for the C5 scenario: the streaming signal is true at the
first three check instants 0, 1, 2 and false from instant 3 on. -/
def c5Streaming : Nat → Bool := fun t => decide (t < 3)

/-- C5 counterexample: with the sequence empty and the streaming signal true at
the check instants 0, 1 and 2 and false afterwards (debounce fires at 0,
streaming wait 1), the scheduler runs exactly one detection pass, at instant
2 — while the signal is still true.  This refutes the claim that no detection
pass runs during the true period and that a pass runs at or after the
transition to false: after two positive checks the code schedules an
unconditional forced scan instead of re-checking a third time. -/
theorem c5_counterexample :
    streamingSchedule c5Streaming false 0 1 = [2] ∧
    c5Streaming 0 = true ∧ c5Streaming 1 = true ∧ c5Streaming 2 = true ∧
    c5Streaming 3 = false ∧
    ¬ (∀ t ∈ streamingSchedule c5Streaming false 0 1, c5Streaming t = false) := by
  decide

/-- C5 amended: when the message sequence is empty and isStreaming() returns
true at the debounce instant t0 and again at the single re-check one
streaming wait later, the scheduler runs exactly one detection pass, at
t0 + 2w, unconditionally — whether or not streaming has ended by then.  The
code consults isStreaming at most twice per burst; there is no third check. -/
theorem c5_streaming_amended (streaming : Nat → Bool) (foundNew : Bool) (t0 w : Nat)
    (h0 : streaming t0 = true) (h1 : streaming (t0 + w) = true) :
    streamingSchedule streaming foundNew t0 w = [t0 + 2 * w] := by
  simp [streamingSchedule, h0, h1]

theorem c5_streaming_amended_witness :
    c5Streaming 0 = true ∧ c5Streaming (0 + 1) = true ∧
    streamingSchedule c5Streaming true 0 1 = [0 + 2 * 1] :=
  ⟨by decide, by decide, c5_streaming_amended c5Streaming true 0 1 (by decide) (by decide)⟩

/-- Concrete fixtures for C6: an old-context message, a message the adapter
would detect in the new context, and an engine state with a pending
streamingTimeout and an active DeepSeek fallback poll. -/
def c6Old : Message :=
  { id := "old", role := "user", content := "o", fullContent := "o",
    element := some 1, timestamp := 0, order := some 0 }

def c6New : Message :=
  { id := "new", role := "user", content := "n", fullContent := "n",
    element := some 2, timestamp := 5, order := some 0 }

def c6Dom : Dom :=
  { parent := fun _ => none
    docPos := fun n => Int.ofNat n
    offsetTop := fun _ => 0 }

def c6State : EngineState :=
  { messages := [c6Old], observerConnected := true, observerTimeout := some 3,
    streamingTimeout := some 7, deepSeekInterval := true, qwenInterval := false }

/-- C6, evaluated at the failing input: the URL-change teardown empties the
sequence and cancels the observer and the debounce timer, but leaves the
pending streamingTimeout and the DeepSeek fallback poll alive; firing the
stale streamingTimeout then runs a detection pass that fills the new context
sequence before the first scheduled pass of the new context, and so does a
tick of the still-active DeepSeek poll.  This contradicts the claim that
every pending timer and fallback poll of the old context is cancelled on
teardown and never mutates the new context sequence. -/
theorem c6_stale_timer_fires :
    (teardownContext c6State).messages = [] ∧
    (teardownContext c6State).observerConnected = false ∧
    (teardownContext c6State).observerTimeout = none ∧
    (teardownContext c6State).streamingTimeout = some 7 ∧
    (teardownContext c6State).deepSeekInterval = true ∧
    (fireStreamingTimeout deepSeekName c6Dom [c6New] (teardownContext c6State)).messages
      = [c6New] ∧
    (fireDeepSeekInterval c6Dom [c6New] (teardownContext c6State)).messages = [c6New] := by
  decide

/-- C7: if the active adapter detectMessages() throws, the engine catches the
exception at the call site and treats it as no new information: the pass
returns with the authoritative sequence unchanged and no re-render, for every
engine state, and the exception does not propagate (the guarded pass is a
total function). -/
theorem c7_adapter_failure_isolated (pname : String) (dom : Dom) (msgs : List Message)
    (e : String) :
    detectMessagesGuarded pname dom msgs (Except.error e) = (msgs, false) := rfl

/-- C8: for a message found in the sequence whose stored element reference is
no longer attached, element resolution falls back to the re-query search
(requeryElement); when that search finds nothing, scrollToMessage is a no-op:
outcome noTarget, no scroll, no highlight, sequence returned unchanged, and
no exception (the model is a total function). -/
theorem c8_scroll_fallback_noop (env : ScrollEnv) (pname : String) (msgs : List Message)
    (id : String) (msg : Message)
    (hfind : msgs.find? (fun m => m.id == id) = some msg)
    (hstale : ∀ el, msg.element = some el → env.connected el = false)
    (hre : requeryElement env pname msg id = none) :
    (ensureMessageElement env pname msg id).1 = requeryElement env pname msg id ∧
    scrollToMessage env pname msgs id = (ScrollOutcome.noTarget, msgs) := by
  have hens : ensureMessageElement env pname msg id = (none, msg) := by
    cases hel : msg.element with
    | none => simp [ensureMessageElement, hel, hre]
    | some el =>
      have hconn := hstale el hel
      simp [ensureMessageElement, hel, hconn, hre]
  refine ⟨by rw [hens, hre], ?_⟩
  simp [scrollToMessage, hfind, hens, replaceFirst_of_mem_find? _ _ _ hfind]

/-- Concrete fixtures for the C8 witness: a message whose stored element is
detached, in an environment where every re-query comes back empty. -/
def c8Env : ScrollEnv :=
  { connected := fun _ => false
    byId := fun _ => none
    queryDataId := fun _ => none
    queryIdContains := fun _ => none
    kimiItems := []
    kimiAssistantBlocks := []
    kimiUserBlocks := [] }

def c8Msg : Message :=
  { id := "m1", role := "user", content := "hello", fullContent := "hello",
    element := some 5, timestamp := 0, order := some 0 }

theorem c8_scroll_fallback_noop_witness :
    ([c8Msg].find? (fun m => m.id == "m1") = some c8Msg) ∧
    ((ensureMessageElement c8Env "" c8Msg "m1").1 = requeryElement c8Env "" c8Msg "m1" ∧
      scrollToMessage c8Env "" [c8Msg] "m1" = (ScrollOutcome.noTarget, [c8Msg])) :=
  ⟨by decide,
    c8_scroll_fallback_noop c8Env "" [c8Msg] "m1" c8Msg (by decide)
      (fun el _ => rfl) (by decide)⟩

/-- C9 counterexample: with the target never centered after an attempt, the
animation runs attempts 0, 1 and 2 — the initial animation plus two retries,
not the single retry the claim states (the code retries while
attempt < maxAttempts with maxAttempts = 2). -/
theorem c9_counterexample :
    smoothScrollAttempts (fun _ => false) = [0, 1, 2] ∧
    (smoothScrollAttempts (fun _ => false)).length = 3 := by
  decide

/-- C9 amended: the scroll animation eases with the ease-out quartic curve
(easeOutQuart is 0 at 0, 1 at 1, and monotone on the unit interval); the
first attempt lasts 320 plus an extra of two fifths of the scroll distance
capped at 580 (so between 320 and 900, hitting 900 from distance 1450 on);
every retry lasts 300, which is strictly faster; a retry happens only when
the target is not within 90 of the intended center after an attempt, and at
most two retries ever happen. -/
theorem c9_scroll_animation_amended (centered : Nat → Bool) (d : ℚ) (hd : 0 ≤ d) :
    (smoothScrollAttempts centered).length ≤ 1 + maxScrollAttempts ∧
    (centered 0 = true → smoothScrollAttempts centered = [0]) ∧
    scrollDuration d 1 = 300 ∧
    scrollDuration d 2 = 300 ∧
    320 ≤ scrollDuration d 0 ∧
    scrollDuration d 0 ≤ 900 ∧
    scrollDuration d 1 < scrollDuration d 0 ∧
    (1450 ≤ d → scrollDuration d 0 = 900) ∧
    easeOutQuart 0 = 0 ∧ easeOutQuart 1 = 1 ∧
    (∀ s t : ℚ, 0 ≤ s → s ≤ t → t ≤ 1 → easeOutQuart s ≤ easeOutQuart t) := by
  have hmin0 : (0 : ℚ) ≤ min (d * (2 / 5)) 580 := le_min (by positivity) (by norm_num)
  have hmin580 : min (d * (2 / 5)) 580 ≤ 580 := min_le_right _ _
  refine ⟨?_, ?_, ?_, ?_, ?_, ?_, ?_, ?_, ?_, ?_, ?_⟩
  · simpa [smoothScrollAttempts, Nat.add_comm] using length_runAttempts centered maxScrollAttempts 0
  · intro h
    simp [smoothScrollAttempts, maxScrollAttempts, runAttempts, h]
  · simp [scrollDuration]
  · simp [scrollDuration]
  · have h0 : scrollDuration d 0 = 320 + min (d * (2 / 5)) 580 := by norm_num [scrollDuration]
    rw [h0]
    linarith
  · have h0 : scrollDuration d 0 = 320 + min (d * (2 / 5)) 580 := by norm_num [scrollDuration]
    rw [h0]
    linarith
  · have h0 : scrollDuration d 0 = 320 + min (d * (2 / 5)) 580 := by norm_num [scrollDuration]
    have h1 : scrollDuration d 1 = 300 := by norm_num [scrollDuration]
    rw [h0, h1]
    linarith
  · intro hcap
    have hge : (580 : ℚ) ≤ d * (2 / 5) := by linarith
    have h0 : scrollDuration d 0 = 320 + min (d * (2 / 5)) 580 := by norm_num [scrollDuration]
    rw [h0, min_eq_right hge]
    norm_num
  · norm_num [easeOutQuart]
  · norm_num [easeOutQuart]
  · intro s t hs hst ht
    have h1 : (0 : ℚ) ≤ 1 - t := by linarith
    have h2 : 1 - t ≤ 1 - s := by linarith
    have := pow_le_pow_left₀ h1 h2 4
    simp only [easeOutQuart]
    linarith

theorem c9_scroll_animation_amended_witness :
    (0 : ℚ) ≤ 10 ∧
    ((smoothScrollAttempts (fun _ => true)).length ≤ 1 + maxScrollAttempts ∧
      ((fun _ => true : Nat → Bool) 0 = true → smoothScrollAttempts (fun _ => true) = [0]) ∧
      scrollDuration 10 1 = 300 ∧
      scrollDuration 10 2 = 300 ∧
      320 ≤ scrollDuration 10 0 ∧
      scrollDuration 10 0 ≤ 900 ∧
      scrollDuration 10 1 < scrollDuration 10 0 ∧
      (1450 ≤ (10 : ℚ) → scrollDuration 10 0 = 900) ∧
      easeOutQuart 0 = 0 ∧ easeOutQuart 1 = 1 ∧
      (∀ s t : ℚ, 0 ≤ s → s ≤ t → t ≤ 1 → easeOutQuart s ≤ easeOutQuart t)) :=
  ⟨by norm_num, c9_scroll_animation_amended (fun _ => true) 10 (by norm_num)⟩

/-- C10: toggleFavorite is an involution on favorites membership: toggling an
absent id appends exactly that id; toggling a present id removes exactly that
id (every occurrence); membership of every other id is untouched; and
toggling the same id twice restores the original membership. -/
theorem c10_toggle_favorite_involution (favs : List String) (id : String) :
    (id ∉ favs → toggleFavorite favs id = favs ++ [id]) ∧
    (id ∈ favs → ∀ x, x ∈ toggleFavorite favs id ↔ (x ∈ favs ∧ x ≠ id)) ∧
    (∀ x, x ≠ id → (x ∈ toggleFavorite favs id ↔ x ∈ favs)) ∧
    (∀ x, x ∈ toggleFavorite (toggleFavorite favs id) id ↔ x ∈ favs) := by
  by_cases hid : id ∈ favs
  · have h1 : toggleFavorite favs id = favs.filter (fun f => !(f == id)) := by
      simp [toggleFavorite, List.contains, hid]
    refine ⟨fun h => absurd hid h, ?_, ?_, ?_⟩
    · intro _ x
      rw [h1]
      simp
    · intro x hx
      rw [h1]
      simp [hx]
    · intro x
      have h2 : id ∉ favs.filter (fun f => !(f == id)) := by simp
      have h3 : toggleFavorite (toggleFavorite favs id) id
          = favs.filter (fun f => !(f == id)) ++ [id] := by
        rw [h1]
        simp [toggleFavorite, List.contains, h2]
      rw [h3]
      simp only [List.mem_append, List.mem_filter, List.mem_singleton]
      constructor
      · rintro (⟨hxf, _⟩ | rfl)
        · exact hxf
        · exact hid
      · intro hxf
        by_cases hxid : x = id
        · exact Or.inr hxid
        · exact Or.inl ⟨hxf, by simp [hxid]⟩
  · have h1 : toggleFavorite favs id = favs ++ [id] := by
      simp [toggleFavorite, List.contains, hid]
    refine ⟨fun _ => h1, fun h => absurd h hid, ?_, ?_⟩
    · intro x hx
      rw [h1]
      simp [hx]
    · intro x
      have h2 : id ∈ favs ++ [id] := by simp
      have h3 : toggleFavorite (toggleFavorite favs id) id
          = (favs ++ [id]).filter (fun f => !(f == id)) := by
        rw [h1]
        simp [toggleFavorite, List.contains, h2]
      rw [h3]
      simp only [List.filter_append, List.mem_append, List.mem_filter]
      constructor
      · rintro (⟨hxf, _⟩ | hx)
        · exact hxf
        · simp at hx
      · intro hxf
        refine Or.inl ⟨hxf, ?_⟩
        have : x ≠ id := fun h => hid (h ▸ hxf)
        simp [this]

theorem c10_toggle_favorite_involution_witness :
    ("b" ∉ (["a"] : List String)) ∧ toggleFavorite ["a"] "b" = ["a"] ++ ["b"] :=
  ⟨by decide, (c10_toggle_favorite_involution ["a"] "b").1 (by decide)⟩

/-! ## Engine lemmas shared by the detection claims -/

lemma le_foldl_max_init (a : Int) (l : List Int) : a ≤ l.foldl max a := by
  induction l generalizing a with
  | nil => simp
  | cons x xs ih => exact le_trans (le_max_left a x) (ih (max a x))

lemma le_foldl_max_of_mem (a x : Int) (l : List Int) (h : x ∈ l) : x ≤ l.foldl max a := by
  induction l generalizing a with
  | nil => simp at h
  | cons y ys ih =>
    rcases List.mem_cons.1 h with rfl | h
    · exact le_trans (le_max_right a x) (le_foldl_max_init _ _)
    · exact ih _ h

lemma le_maxExistingOrder (msgs : List Message) (m : Message) (h : m ∈ msgs) :
    m.order.getD (-1) ≤ maxExistingOrder msgs := by
  cases msgs with
  | nil => simp at h
  | cons m0 rest =>
    have hmem : m.order.getD (-1) ∈ (m0 :: rest).map (fun m => m.order.getD (-1)) :=
      List.mem_map_of_mem _ h
    simp only [List.map_cons, List.mem_cons] at hmem
    simp only [maxExistingOrder, List.map_cons]
    rcases hmem with heq | hmem2
    · rw [heq]
      exact le_foldl_max_init _ _
    · exact le_foldl_max_of_mem _ _ _ hmem2

lemma reassignFrom_map_id (b : Int) (l : List Message) :
    (reassignFrom b l).map Message.id = l.map Message.id := by
  induction l generalizing b with
  | nil => rfl
  | cons m rest ih => simp [reassignFrom, ih]

lemma mem_reassignFrom (b : Int) (l : List Message) (a : Message)
    (h : a ∈ reassignFrom b l) :
    ∃ d ∈ l, ∃ k, b ≤ k ∧ a = { d with order := some k } := by
  induction l generalizing b with
  | nil => simp [reassignFrom] at h
  | cons m rest ih =>
    simp only [reassignFrom, List.mem_cons] at h
    rcases h with h | h
    · exact ⟨m, List.mem_cons_self m rest, b, le_refl b, h⟩
    · obtain ⟨d, hd, k, hk, rfl⟩ := ih (b + 1) h
      exact ⟨d, List.mem_cons_of_mem _ hd, k, by omega, rfl⟩

lemma mem_reassignFrom_of_mem (b : Int) (l : List Message) (d : Message) (h : d ∈ l) :
    ∃ k, b ≤ k ∧ ({ d with order := some k } : Message) ∈ reassignFrom b l := by
  induction l generalizing b with
  | nil => simp at h
  | cons m rest ih =>
    rcases List.mem_cons.1 h with rfl | h
    · exact ⟨b, le_refl b, List.mem_cons_self _ _⟩
    · obtain ⟨k, hk, hmem⟩ := ih (b + 1) h
      exact ⟨k, by omega, List.mem_cons_of_mem _ hmem⟩

lemma reassignFrom_pairwise (b : Int) (l : List Message) :
    (reassignFrom b l).Pairwise
      (fun a c => ∃ ka kc, a.order = some ka ∧ c.order = some kc ∧ ka < kc) := by
  induction l generalizing b with
  | nil => simp [reassignFrom]
  | cons m rest ih =>
    simp only [reassignFrom]
    refine List.Pairwise.cons ?_ (ih (b + 1))
    intro c hc
    obtain ⟨d, _, k, hk, rfl⟩ := mem_reassignFrom _ _ _ hc
    exact ⟨b, k, rfl, rfl, by omega⟩

lemma orderAdjusted_map_id (pname : String) (msgs u : List Message) :
    (orderAdjusted pname msgs u).map Message.id = u.map Message.id := by
  unfold orderAdjusted
  split
  · exact reassignFrom_map_id _ _
  · rfl

lemma mem_orderAdjusted (pname : String) (msgs u : List Message) (a : Message)
    (h : a ∈ orderAdjusted pname msgs u) :
    (∃ d ∈ u, ∃ k, a = { d with order := some k }) ∨ a ∈ u := by
  unfold orderAdjusted at h
  split at h
  · obtain ⟨d, hd, k, _, rfl⟩ := mem_reassignFrom _ _ _ h
    exact Or.inl ⟨d, hd, k, rfl⟩
  · exact Or.inr h

lemma acceptedNew_nil (pname : String) (dom : Dom) (msgs : List Message) :
    acceptedNew pname dom msgs [] = [] := by
  simp [acceptedNew, idFiltered, orderAdjusted]

lemma detectStep_perm (pname : String) (dom : Dom) (msgs cands : List Message) :
    List.Perm (detectStep pname dom msgs cands).1
      (msgs ++ acceptedNew pname dom msgs cands) := by
  by_cases hc : 0 < cands.length
  · by_cases hA : 0 < (acceptedNew pname dom msgs cands).length
    · simp only [detectStep, if_pos hc, if_pos hA]
      exact List.perm_insertionSort _ _
    · have hnil : acceptedNew pname dom msgs cands = [] :=
        List.eq_nil_of_length_eq_zero (by omega)
      simp [detectStep, hc, hA, hnil]
  · have hcnil : cands = [] := List.eq_nil_of_length_eq_zero (by omega)
    subst hcnil
    simp [detectStep, acceptedNew_nil]

lemma acceptedNew_id_not_mem (pname : String) (dom : Dom) (msgs cands : List Message)
    (a : Message) (ha : a ∈ acceptedNew pname dom msgs cands) :
    a.id ∉ msgs.map Message.id := by
  have ha1 : a ∈ orderAdjusted pname msgs (idFiltered msgs cands) :=
    (List.mem_filter.1 ha).1
  have ha2 : a.id ∈ (orderAdjusted pname msgs (idFiltered msgs cands)).map Message.id :=
    List.mem_map_of_mem _ ha1
  rw [orderAdjusted_map_id] at ha2
  obtain ⟨d, hd, hdid⟩ := List.mem_map.1 ha2
  have hpred := (List.mem_filter.1 hd).2
  intro hmem
  rw [← hdid] at hmem
  obtain ⟨x, hx, hxid⟩ := List.mem_map.1 hmem
  simp [List.contains] at hpred
  exact hpred x hx hxid

lemma acceptedNew_ids_sublist (pname : String) (dom : Dom) (msgs cands : List Message) :
    List.Sublist ((acceptedNew pname dom msgs cands).map Message.id)
      (cands.map Message.id) := by
  have h1 : List.Sublist ((acceptedNew pname dom msgs cands).map Message.id)
      ((orderAdjusted pname msgs (idFiltered msgs cands)).map Message.id) :=
    (List.filter_sublist _).map _
  rw [orderAdjusted_map_id] at h1
  exact h1.trans ((List.filter_sublist _).map _)

lemma check1_eq_false_of_ord (m n : Message)
    (h : ∀ k, m.order = some k → n.order ≠ some k) : check1 m n = false := by
  unfold check1
  cases hm : m.order with
  | none => rfl
  | some oe =>
    cases hn : n.order with
    | none => rfl
    | some onew =>
      have hne : (oe == onew) = false := by
        have hval : onew ≠ oe := by
          intro he
          exact h oe hm (by rw [hn, he])
        simp [Ne.symm hval]
      simp [hne]

lemma check23_eq_false_of (dom : Dom) (m n : Message)
    (h1 : sameElement m.element n.element = false)
    (h2 : ∀ ee ne, m.element = some ee → n.element = some ne →
      proximityDrop dom ne ee = false) :
    check23 dom m n = false := by
  unfold check23
  rw [h1]
  simp only [Bool.false_or]
  cases hm : m.element with
  | none => simp
  | some ee =>
    cases hn : n.element with
    | none => simp
    | some ne => simp [h2 ee ne hm hn]

lemma check23_order_irrel (dom : Dom) (e d : Message) (o : Option Int) :
    check23 dom e { d with order := o } = check23 dom e d := rfl

lemma exists_drop_of_keepNew_false (dom : Dom) (msgs : List Message) (n : Message)
    (h : keepNew dom msgs n = false) :
    ∃ X ∈ msgs, dropAgainst dom X n = true := by
  unfold keepNew at h
  rw [List.all_eq_false] at h
  obtain ⟨X, hX, hfalse⟩ := h
  exact ⟨X, hX, by simpa using hfalse⟩

lemma keepNew_false_of_drop (dom : Dom) (msgs : List Message) (n X : Message)
    (hX : X ∈ msgs) (h : dropAgainst dom X n = true) :
    keepNew dom msgs n = false := by
  unfold keepNew
  rw [List.all_eq_false]
  exact ⟨X, hX, by simp [h]⟩

lemma keepNew_of_separated (dom : Dom) (msgs : List Message) (n : Message)
    (helem : ∀ m ∈ msgs, m.role = n.role → sameElement m.element n.element = false)
    (hfar : ∀ m ∈ msgs, m.role = n.role → ∀ ee ne, m.element = some ee →
      n.element = some ne → proximityDrop dom ne ee = false)
    (hord : ∀ m ∈ msgs, m.role = n.role → ∀ k, m.order = some k → n.order ≠ some k) :
    keepNew dom msgs n = true := by
  unfold keepNew
  rw [List.all_eq_true]
  intro m hm
  by_cases hrole : m.role = n.role
  · have h1 := check1_eq_false_of_ord m n (hord m hm hrole)
    have h2 := check23_eq_false_of dom m n (helem m hm hrole) (hfar m hm hrole)
    simp [dropAgainst, h1, h2]
  · simp [dropAgainst, hrole]

/-! ## Sortedness of the pass output when every order is defined -/

/-- The primary sort key: the order value, read as the comparator reads it. -/
def orderKey (m : Message) : Int := m.order.getD 0

lemma msgLE_iff_orders (dom : Dom) (a b : Message)
    (ha : a.order.isSome) (hb : b.order.isSome) :
    msgLE dom a b ↔ orderKey a ≤ orderKey b := by
  obtain ⟨oa, hoa⟩ := Option.isSome_iff_exists.1 ha
  obtain ⟨ob, hob⟩ := Option.isSome_iff_exists.1 hb
  simp only [msgLE, msgCmp, orderKey, hoa, hob, Option.getD_some]
  omega

lemma orderedInsert_sorted_keys (dom : Dom) (a : Message) (l : List Message)
    (ha : a.order.isSome) :
    (∀ m ∈ l, m.order.isSome) →
    l.Pairwise (fun x y => orderKey x ≤ orderKey y) →
    (List.orderedInsert (msgLE dom) a l).Pairwise (fun x y => orderKey x ≤ orderKey y) := by
  induction l with
  | nil =>
    intro _ _
    simp
  | cons b t ih =>
    intro hl hs
    have hb : b.order.isSome := hl b (List.mem_cons_self b t)
    have ht : ∀ m ∈ t, m.order.isSome := fun m hm => hl m (List.mem_cons_of_mem _ hm)
    have hpc := List.pairwise_cons.1 hs
    rw [List.orderedInsert]
    by_cases hab : msgLE dom a b
    · rw [if_pos hab]
      have hkey : orderKey a ≤ orderKey b := (msgLE_iff_orders dom a b ha hb).1 hab
      refine List.Pairwise.cons ?_ hs
      intro y hy
      rcases List.mem_cons.1 hy with rfl | hy
      · exact hkey
      · exact le_trans hkey (hpc.1 y hy)
    · rw [if_neg hab]
      refine List.Pairwise.cons ?_ (ih ht hpc.2)
      intro y hy
      rw [List.mem_orderedInsert] at hy
      rcases hy with heq | hy
      · have hnot : ¬ orderKey a ≤ orderKey b :=
          fun h => hab ((msgLE_iff_orders dom a b ha hb).2 h)
        rw [heq]
        exact le_of_not_le hnot
      · exact hpc.1 y hy

lemma insertionSort_sorted_keys (dom : Dom) (l : List Message) :
    (∀ m ∈ l, m.order.isSome) →
    (List.insertionSort (msgLE dom) l).Pairwise (fun x y => orderKey x ≤ orderKey y) := by
  induction l with
  | nil =>
    intro _
    simp
  | cons a t ih =>
    intro hl
    have ha : a.order.isSome := hl a (List.mem_cons_self a t)
    have ht : ∀ m ∈ t, m.order.isSome := fun m hm => hl m (List.mem_cons_of_mem _ hm)
    rw [List.insertionSort]
    refine orderedInsert_sorted_keys dom a _ ha ?_ (ih ht)
    intro m hm
    exact ht m ((List.perm_insertionSort (msgLE dom) t).subset hm)

lemma acceptedNew_order_isSome (pname : String) (dom : Dom) (msgs cands : List Message)
    (hc : ∀ c ∈ cands, c.order.isSome) :
    ∀ a ∈ acceptedNew pname dom msgs cands, a.order.isSome := by
  intro a ha
  have ha1 : a ∈ orderAdjusted pname msgs (idFiltered msgs cands) :=
    (List.mem_filter.1 ha).1
  rcases mem_orderAdjusted _ _ _ _ ha1 with ⟨d, _, k, rfl⟩ | hmem
  · rfl
  · have hacands : a ∈ cands := by
      simp only [idFiltered, List.mem_filter] at hmem
      exact hmem.1
    exact hc a hacands

/-! ## C3 -/

/-- C3: a detection pass never rewrites an existing message: the output
sequence is a permutation of the input sequence with the accepted candidates
appended, so every stored message survives verbatim (its order field
included); order renumbering happens only on the DeepSeek path and only to
the new candidates, whose fresh orders all start strictly after the current
maximum order and strictly increase along the batch, preserving their
relative sequence. -/
theorem c3_order_stability (pname : String) (dom : Dom) (msgs cands : List Message) :
    List.Perm (detectStep pname dom msgs cands).1
      (msgs ++ acceptedNew pname dom msgs cands) ∧
    (∀ m ∈ msgs, m ∈ (detectStep pname dom msgs cands).1) ∧
    (∀ a ∈ acceptedNew deepSeekName dom msgs cands,
      ∃ k, a.order = some k ∧ maxExistingOrder msgs < k) ∧
    (acceptedNew deepSeekName dom msgs cands).Pairwise
      (fun a b => ∃ ka kb, a.order = some ka ∧ b.order = some kb ∧ ka < kb) := by
  refine ⟨detectStep_perm pname dom msgs cands, ?_, ?_, ?_⟩
  · intro m hm
    exact ((detectStep_perm pname dom msgs cands).symm.subset)
      (List.mem_append_left _ hm)
  · intro a ha
    have ha1 : a ∈ orderAdjusted deepSeekName msgs (idFiltered msgs cands) :=
      (List.mem_filter.1 ha).1
    unfold orderAdjusted at ha1
    split at ha1
    · simp only [reassignOrders] at ha1
      obtain ⟨d, _, k, hk, rfl⟩ := mem_reassignFrom _ _ _ ha1
      exact ⟨k, rfl, by omega⟩
    · rename_i hcond
      have hnil : idFiltered msgs cands = [] := by
        by_contra hne
        apply hcond
        have h2 : decide (0 < (idFiltered msgs cands).length) = true := by
          simp [List.length_pos, hne]
        simp [h2]
      rw [hnil] at ha1
      simp at ha1
  · unfold acceptedNew
    unfold orderAdjusted
    split
    · simp only [reassignOrders]
      exact (reassignFrom_pairwise _ _).filter _
    · rename_i hcond
      have hnil : idFiltered msgs cands = [] := by
        by_contra hne
        apply hcond
        have h2 : decide (0 < (idFiltered msgs cands).length) = true := by
          simp [List.length_pos, hne]
        simp [h2]
      rw [hnil]
      simp

/-! ## C1 -/

/-- A non-DeepSeek platform name for the C1 scenarios. -/
def c1Platform : String := "Gemini"

/-- C1 document: node 20 sits below the chain 20, 21, ..., 30, so node 30 is
its ancestor at exactly 10 hops. -/
def c1Dom : Dom :=
  { parent := fun k => if 20 ≤ k && k < 30 then some (k + 1) else none
    docPos := fun k => Int.ofNat k
    offsetTop := fun _ => 0 }

def c1Existing : Message :=
  { id := "a", role := "user", content := "hi", fullContent := "hi",
    element := some 30, timestamp := 0, order := some 0 }

/-- Same role, identical content, different id, element 10 ancestor hops away,
but the same order value as c1Existing. -/
def c1Cand : Message :=
  { id := "b", role := "user", content := "hi", fullContent := "hi",
    element := some 20, timestamp := 1, order := some 0 }

def c1DupA : Message :=
  { id := "d", role := "user", content := "x", fullContent := "x",
    element := some 40, timestamp := 0, order := some 0 }

def c1DupB : Message :=
  { id := "d", role := "assistant", content := "y", fullContent := "y",
    element := some 41, timestamp := 0, order := some 1 }

/-- C1 counterexample, two parts.  First: a candidate with a different id, the
same role and character-identical content as the existing message, whose
element is 10 ancestor hops away (proximityDrop is false), is nevertheless
rejected, because it carries the same order value and the same-order check
fires on content equality alone — refuting part (ii) of the claim.  Second:
a single batch holding two candidates with the same id is accepted whole
(the engine only filters candidate ids against the existing sequence, never
within the batch), so two messages in the sequence share an id — refuting
the conclusion of part (i) for duplicate-id batches. -/
theorem c1_counterexample :
    (c1Cand.id ≠ c1Existing.id ∧ c1Cand.role = c1Existing.role ∧
      c1Cand.fullContent = c1Existing.fullContent ∧
      c1Cand.content = c1Existing.content ∧
      c1Existing.element = some 30 ∧ c1Cand.element = some 20 ∧
      proximityDrop c1Dom 20 30 = false ∧
      detectStep c1Platform c1Dom [c1Existing] [c1Cand] = ([c1Existing], false)) ∧
    ((detectStep c1Platform c1Dom [] [c1DupA, c1DupB]).1.map Message.id = ["d", "d"] ∧
      ¬ ((detectStep c1Platform c1Dom [] [c1DupA, c1DupB]).1.map Message.id).Nodup) := by
  decide

/-- C1 amended: (i) holds provided the stored sequence and the candidate batch
each carry pairwise distinct ids: a candidate whose id is already stored is
never appended (every accepted candidate carries a fresh id) and the output
ids stay pairwise distinct; (ii) holds with the extra requirement that the
candidate does not share a defined order value with any same-role stored
message: such a candidate — different id, any content, element not identical
to and not within 3 ancestor hops of any same-role stored element — is
accepted and appended as a distinct message. -/
theorem c1_dedup_amended (pname : String) (dom : Dom) (msgs cands : List Message)
    (n : Message)
    (hids : (msgs.map Message.id).Nodup) (hcids : (cands.map Message.id).Nodup)
    (hnid : n.id ∉ msgs.map Message.id)
    (helem : ∀ m ∈ msgs, m.role = n.role → sameElement m.element n.element = false)
    (hfar : ∀ m ∈ msgs, m.role = n.role → ∀ ee ne, m.element = some ee →
      n.element = some ne → proximityDrop dom ne ee = false)
    (hord : ∀ m ∈ msgs, m.role = n.role → ∀ k, m.order = some k → n.order ≠ some k) :
    (((detectStep pname dom msgs cands).1.map Message.id).Nodup ∧
      ∀ a ∈ acceptedNew pname dom msgs cands, a.id ∉ msgs.map Message.id) ∧
    ((detectStep pname dom msgs [n]).2 = true ∧
      (detectStep pname dom msgs [n]).1.length = msgs.length + 1 ∧
      n.id ∈ (detectStep pname dom msgs [n]).1.map Message.id) := by
  constructor
  · constructor
    · have hperm := (detectStep_perm pname dom msgs cands).map Message.id
      rw [List.map_append] at hperm
      apply hperm.nodup_iff.2
      rw [List.nodup_append]
      refine ⟨hids, (acceptedNew_ids_sublist pname dom msgs cands).nodup hcids, ?_⟩
      intro x hx hx2
      obtain ⟨a, ha, rfl⟩ := List.mem_map.1 hx2
      exact acceptedNew_id_not_mem pname dom msgs cands a ha hx
    · exact fun a ha => acceptedNew_id_not_mem pname dom msgs cands a ha
  · have hcont : ((msgs.map Message.id).contains n.id) = false := by
      rw [← Bool.not_eq_true]
      intro hcmem
      apply hnid
      simpa [List.contains, List.elem_iff] using hcmem
    have hu : idFiltered msgs [n] = [n] := by
      simp only [idFiltered, List.filter_cons, List.filter_nil, hcont]
      simp
    have hmain : ∃ n1 : Message, n1.id = n.id ∧
        acceptedNew pname dom msgs [n] = [n1] := by
      by_cases hds : (pname == deepSeekName) = true
      · refine ⟨{ n with order := some (maxExistingOrder msgs + 1) }, rfl, ?_⟩
        have hadj : orderAdjusted pname msgs [n]
            = [{ n with order := some (maxExistingOrder msgs + 1) }] := by
          simp [orderAdjusted, hds, reassignOrders, reassignFrom]
        have hkeep : keepNew dom msgs { n with order := some (maxExistingOrder msgs + 1) }
            = true := by
          apply keepNew_of_separated
          · intro m hm hrole
            exact helem m hm hrole
          · intro m hm hrole ee ne hee hne
            exact hfar m hm hrole ee ne hee hne
          · intro m hm _ k hk heq
            have hkval : maxExistingOrder msgs + 1 = k := Option.some.inj heq
            have hle := le_maxExistingOrder msgs m hm
            rw [hk] at hle
            simp at hle
            omega
        unfold acceptedNew
        rw [hu, hadj]
        simp [hkeep]
      · refine ⟨n, rfl, ?_⟩
        have hadj : orderAdjusted pname msgs [n] = [n] := by
          simp [orderAdjusted, hds]
        have hkeep : keepNew dom msgs n = true :=
          keepNew_of_separated dom msgs n helem hfar hord
        unfold acceptedNew
        rw [hu, hadj]
        simp [hkeep]
    obtain ⟨n1, hn1id, hacc⟩ := hmain
    have hres : detectStep pname dom msgs [n]
        = (List.insertionSort (msgLE dom) (msgs ++ [n1]), true) := by
      simp [detectStep, hacc]
    refine ⟨by rw [hres], ?_, ?_⟩
    · rw [hres]
      simp [List.length_insertionSort]
    · rw [hres]
      have hmem : n1 ∈ List.insertionSort (msgLE dom) (msgs ++ [n1]) :=
        (List.perm_insertionSort _ _).mem_iff.2
          (List.mem_append_right _ (List.mem_singleton_self _))
      have hidmem := List.mem_map_of_mem Message.id hmem
      rw [hn1id] at hidmem
      exact hidmem

/-- The C1 witness candidate: like c1Cand but with a fresh order value. -/
def c1WitCand : Message :=
  { id := "b", role := "user", content := "hi", fullContent := "hi",
    element := some 20, timestamp := 1, order := some 1 }

theorem c1_dedup_amended_witness :
    (((detectStep c1Platform c1Dom [c1Existing] [c1WitCand]).1.map Message.id).Nodup ∧
      ∀ a ∈ acceptedNew c1Platform c1Dom [c1Existing] [c1WitCand],
        a.id ∉ [c1Existing].map Message.id) ∧
    ((detectStep c1Platform c1Dom [c1Existing] [c1WitCand]).2 = true ∧
      (detectStep c1Platform c1Dom [c1Existing] [c1WitCand]).1.length
        = [c1Existing].length + 1 ∧
      c1WitCand.id ∈ (detectStep c1Platform c1Dom [c1Existing] [c1WitCand]).1.map
        Message.id) := by
  refine c1_dedup_amended c1Platform c1Dom [c1Existing] [c1WitCand] c1WitCand
    (by decide) (by decide) (by decide) ?_ ?_ ?_
  · intro m hm hrole
    simp only [List.mem_singleton] at hm
    subst hm
    decide
  · intro m hm _ ee ne hee hne
    simp only [List.mem_singleton] at hm
    subst hm
    have h1 : (30 : Nat) = ee := Option.some.inj hee
    have h2 : (20 : Nat) = ne := Option.some.inj hne
    subst h1
    subst h2
    decide
  · intro m hm _ k hk
    simp only [List.mem_singleton] at hm
    subst hm
    have h1 : (0 : Int) = k := Option.some.inj hk
    subst h1
    decide

/-! ## C2 -/

def c2Platform : String := "Gemini"

/-- C2 document: node 20 precedes node 10 in document order. -/
def c2Dom : Dom :=
  { parent := fun _ => none
    docPos := fun k => if k == 20 then 1 else 5
    offsetTop := fun _ => 0 }

def c2First : Message :=
  { id := "a", role := "user", content := "x", fullContent := "x",
    element := some 10, timestamp := 0, order := some 0 }

def c2Second : Message :=
  { id := "b", role := "assistant", content := "y", fullContent := "y",
    element := some 20, timestamp := 1, order := some 0 }

/-- C2 counterexample: an accepting pass whose two messages carry equal defined
order values ends with the stored message before the accepted one even though
the accepted one strictly precedes it in document order — the comparator
returns 0 on equal defined orders and never consults document position, so
the stable sort keeps insertion order and the spec comparator is violated. -/
theorem c2_counterexample :
    detectStep c2Platform c2Dom [c2First] [c2Second] = ([c2First, c2Second], true) ∧
    c2First.order = some 0 ∧ c2Second.order = some 0 ∧
    c2Dom.docPos 20 < c2Dom.docPos 10 ∧
    specSorted c2Dom (detectStep c2Platform c2Dom [c2First] [c2Second]).1 = false := by
  decide

/-- C2 amended: document position (then offsetTop, then timestamp) is consulted
only when both order values are absent; on equal defined order values the
comparator reports a tie and the stable sort keeps insertion order.  In
particular, after every accepting pass in which every stored message and
every candidate carries a defined order, the sequence is sorted by order
ascending. -/
theorem c2_sorted_amended (pname : String) (dom : Dom) (msgs cands : List Message)
    (hm : ∀ m ∈ msgs, m.order.isSome) (hc : ∀ c ∈ cands, c.order.isSome)
    (hacc : 0 < (acceptedNew pname dom msgs cands).length) :
    (detectStep pname dom msgs cands).1.Pairwise
      (fun a b => a.order.getD 0 ≤ b.order.getD 0) := by
  have hcands : 0 < cands.length := by
    rcases cands with _ | ⟨c, cs⟩
    · rw [acceptedNew_nil] at hacc
      simp at hacc
    · simp
  have hres : (detectStep pname dom msgs cands).1 =
      List.insertionSort (msgLE dom) (msgs ++ acceptedNew pname dom msgs cands) := by
    simp [detectStep, hcands, hacc]
  rw [hres]
  have hall : ∀ m ∈ msgs ++ acceptedNew pname dom msgs cands, m.order.isSome := by
    intro m hmem
    rcases List.mem_append.1 hmem with h | h
    · exact hm m h
    · exact acceptedNew_order_isSome pname dom msgs cands hc m h
  exact insertionSort_sorted_keys dom _ hall

def c2Wit : Message :=
  { id := "w", role := "user", content := "z", fullContent := "z",
    element := some 3, timestamp := 0, order := some 0 }

theorem c2_sorted_amended_witness :
    0 < (acceptedNew c2Platform c2Dom [] [c2Wit]).length ∧
    (detectStep c2Platform c2Dom [] [c2Wit]).1.Pairwise
      (fun a b => a.order.getD 0 ≤ b.order.getD 0) :=
  ⟨by decide,
    c2_sorted_amended c2Platform c2Dom [] [c2Wit] (by simp) (by decide) (by decide)⟩

/-! ## C4 -/

lemma mem_idFiltered_of (msgs cands : List Message) (d : Message)
    (hdc : d ∈ cands) (hnot : d.id ∉ msgs.map Message.id) :
    d ∈ idFiltered msgs cands := by
  apply List.mem_filter.2
  refine ⟨hdc, ?_⟩
  simp [List.contains]
  intro x hx heq
  exact hnot (heq ▸ List.mem_map_of_mem Message.id hx)

/-- The heart of idempotence: against any sequence S1 that permutes the
pass-one output (previous messages plus accepted candidates), a second run
over the same candidate list accepts nothing — candidates accepted in pass
one are now dropped by the id filter, and candidates dropped by the
near-duplicate filter in pass one are dropped by it again, because the
pass-one witness message is still present and the checks that dropped them
do not depend on the reassigned order values. -/
lemma second_pass_rejects (pname : String) (dom : Dom) (msgs cands S1 : List Message)
    (hperm : List.Perm S1 (msgs ++ acceptedNew pname dom msgs cands)) :
    acceptedNew pname dom S1 cands = [] := by
  have hdfacts : ∀ d ∈ idFiltered S1 cands,
      d ∈ cands ∧ d.id ∉ msgs.map Message.id ∧
        d.id ∉ (acceptedNew pname dom msgs cands).map Message.id := by
    intro d hd
    have hdc : d ∈ cands := (List.mem_filter.1 hd).1
    have hpred := (List.mem_filter.1 hd).2
    have hnotS1 : d.id ∉ S1.map Message.id := by
      simp [List.contains] at hpred
      intro hmem
      obtain ⟨x, hx, hxid⟩ := List.mem_map.1 hmem
      exact hpred x hx hxid
    have hmapperm : List.Perm (S1.map Message.id)
        ((msgs.map Message.id) ++ ((acceptedNew pname dom msgs cands).map Message.id)) := by
      have h := hperm.map Message.id
      rwa [List.map_append] at h
    have hnot2 : d.id ∉ (msgs.map Message.id)
        ++ ((acceptedNew pname dom msgs cands).map Message.id) :=
      fun hmem => hnotS1 (hmapperm.mem_iff.2 hmem)
    rw [List.mem_append] at hnot2
    push_neg at hnot2
    exact ⟨hdc, hnot2.1, hnot2.2⟩
  unfold acceptedNew
  apply List.filter_eq_nil_iff.2
  intro a ha
  intro hkt
  by_cases hds : (pname == deepSeekName) = true
  · rcases Nat.eq_zero_or_pos (idFiltered S1 cands).length with hz | hlen2
    · have hnil2 : idFiltered S1 cands = [] := List.eq_nil_of_length_eq_zero hz
      rw [hnil2] at ha
      simp [orderAdjusted] at ha
    · have hadj2 : orderAdjusted pname S1 (idFiltered S1 cands)
          = reassignFrom (maxExistingOrder S1 + 1) (idFiltered S1 cands) := by
        simp [orderAdjusted, hds, reassignOrders, hlen2]
      rw [hadj2] at ha
      obtain ⟨d, hd, k2, hk2, hashape⟩ := mem_reassignFrom _ _ _ ha
      obtain ⟨hdc, hnotmsgs, hnotA⟩ := hdfacts d hd
      have hd1 : d ∈ idFiltered msgs cands := mem_idFiltered_of msgs cands d hdc hnotmsgs
      have hlen1 : 0 < (idFiltered msgs cands).length := List.length_pos_of_mem hd1
      have hadj1 : orderAdjusted pname msgs (idFiltered msgs cands)
          = reassignFrom (maxExistingOrder msgs + 1) (idFiltered msgs cands) := by
        simp [orderAdjusted, hds, reassignOrders, hlen1]
      obtain ⟨k1, hk1, hmem1⟩ := mem_reassignFrom_of_mem (maxExistingOrder msgs + 1) _ d hd1
      have hnot1 : ({ d with order := some k1 } : Message)
          ∉ acceptedNew pname dom msgs cands := by
        intro hmem
        have hidmem := List.mem_map_of_mem Message.id hmem
        exact hnotA hidmem
      have hkeep1 : keepNew dom msgs { d with order := some k1 } = false := by
        by_contra hktb
        rw [Bool.not_eq_false] at hktb
        apply hnot1
        unfold acceptedNew
        rw [hadj1]
        exact List.mem_filter.2 ⟨hmem1, hktb⟩
      obtain ⟨X, hX, hdrop⟩ := exists_drop_of_keepNew_false dom msgs _ hkeep1
      unfold dropAgainst at hdrop
      rw [Bool.and_eq_true] at hdrop
      obtain ⟨hrole, hchecks⟩ := hdrop
      have hc1false : check1 X { d with order := some k1 } = false := by
        apply check1_eq_false_of_ord
        intro k hk heq
        have hkeq : k1 = k := Option.some.inj heq
        have hle := le_maxExistingOrder msgs X hX
        rw [hk] at hle
        simp at hle
        omega
      rw [hc1false] at hchecks
      simp only [Bool.false_or] at hchecks
      rw [check23_order_irrel] at hchecks
      have hdrop2 : dropAgainst dom X a = true := by
        rw [hashape]
        unfold dropAgainst
        rw [Bool.and_eq_true]
        refine ⟨hrole, ?_⟩
        rw [Bool.or_eq_true]
        right
        rw [check23_order_irrel]
        exact hchecks
      have hXS1 : X ∈ S1 := hperm.mem_iff.2 (List.mem_append_left _ hX)
      have hfalse := keepNew_false_of_drop dom S1 a X hXS1 hdrop2
      rw [hkt] at hfalse
      exact Bool.noConfusion hfalse
  · have hadjid : ∀ (msgs' u : List Message), orderAdjusted pname msgs' u = u := by
      intro msgs' u
      simp [orderAdjusted, hds]
    rw [hadjid] at ha
    obtain ⟨hac, hnotmsgs, hnotA⟩ := hdfacts a ha
    have ha1 : a ∈ idFiltered msgs cands := mem_idFiltered_of msgs cands a hac hnotmsgs
    have hnotinA : a ∉ acceptedNew pname dom msgs cands :=
      fun hmem => hnotA (List.mem_map_of_mem Message.id hmem)
    have hkeepfalse : keepNew dom msgs a = false := by
      by_contra hktb
      rw [Bool.not_eq_false] at hktb
      apply hnotinA
      unfold acceptedNew
      rw [hadjid]
      exact List.mem_filter.2 ⟨ha1, hktb⟩
    obtain ⟨X, hX, hdrop⟩ := exists_drop_of_keepNew_false dom msgs a hkeepfalse
    have hXS1 : X ∈ S1 := hperm.mem_iff.2 (List.mem_append_left _ hX)
    have hfalse := keepNew_false_of_drop dom S1 a X hXS1 hdrop
    rw [hkt] at hfalse
    exact Bool.noConfusion hfalse

/-- C4: detection is idempotent at the engine level: for every platform, every
document, every stored sequence and every candidate list, running the
detection pass a second time on the output of the first pass with the same
candidate list (an unchanged document) accepts zero new messages — the
sequence after the second pass equals the sequence after the first pass and
no re-render is signalled. -/
theorem c4_detection_idempotent (pname : String) (dom : Dom) (msgs cands : List Message) :
    detectStep pname dom (detectStep pname dom msgs cands).1 cands
      = ((detectStep pname dom msgs cands).1, false) := by
  by_cases hc : 0 < cands.length
  · by_cases hA : 0 < (acceptedNew pname dom msgs cands).length
    · have h1 : detectStep pname dom msgs cands
          = (List.insertionSort (msgLE dom)
              (msgs ++ acceptedNew pname dom msgs cands), true) := by
        simp [detectStep, hc, hA]
      rw [h1]
      show detectStep pname dom
          (List.insertionSort (msgLE dom) (msgs ++ acceptedNew pname dom msgs cands)) cands
        = (List.insertionSort (msgLE dom) (msgs ++ acceptedNew pname dom msgs cands), false)
      have hkey : acceptedNew pname dom
          (List.insertionSort (msgLE dom) (msgs ++ acceptedNew pname dom msgs cands)) cands
          = [] :=
        second_pass_rejects pname dom msgs cands _ (List.perm_insertionSort _ _)
      simp [detectStep, hc, hkey]
    · have h1 : detectStep pname dom msgs cands = (msgs, false) := by
        simp [detectStep, hc, hA]
      rw [h1]
      exact h1
  · have h1 : detectStep pname dom msgs cands = (msgs, false) := by
      simp [detectStep, hc]
    rw [h1]
    exact h1
